import Mathlib

/-!
Verification development for the orbit-response-matrix (ORM) module
`phantasy/library/physics/orm.py` of the phantasy repository.

The Python module drives corrector magnets through a scan, reads beam
positions from monitor elements, fits a degree-1 least-squares polynomial
per monitor row, assembles the response matrix column by column, inverts
it through an SVD-based pseudo-inverse, and derives corrector deltas.

Shallow embedding choices:
* An element attribute store (`Settings`) maps an element id and a field
  name to a rational value; `setattr` on a corrector writes it, `getattr`
  on a corrector reads it back (an actuator's readback is the last value
  written).
* Monitor readings are physics: `getattr` on a monitor is answered by an
  environment `Env`, a deterministic function of the current settings.
* Machine reals are modelled as exact rationals `ℚ`.
* Hardware-touching steps (`setattr`, `time.sleep`, `getattr`) are
  recorded in an event trace so temporal and frame claims can be stated.
  Pure logging (`print`, `msg_queue.put`) is not part of the trace.
-/

namespace Orm

/-- Element attribute store: element id and field name to value.
`setattr(elem, fld, v)` updates it; `getattr` on correctors reads it. -/
abbrev Settings := Nat → String → ℚ

/-- Physics environment: monitor readings (`getattr(elem, fld)` on a
monitor element) as a deterministic function of the current settings. -/
abbrev Env := Settings → Nat → String → ℚ

/-- `setattr(elem, fld, v)`: update one element field. -/
def setf (s : Settings) (e : Nat) (f : String) (v : ℚ) : Settings :=
  fun e' f' => if e' = e ∧ f' = f then v else s e' f'

/-- One hardware-touching step of the scan: a field write (`setattr`),
a wait (`time.sleep`), or a field read (`getattr`) with the value read. -/
inductive Event where
  | setE : Nat → String → ℚ → Event
  | sleepE : ℚ → Event
  | getE : Nat → String → ℚ → Event
deriving DecidableEq

/-- Keyword arguments shared by `get_orm`, `get_orm_for_one_corrector`
and `get_orbit`, with the module's defaults.  The default `scan` is
`np.linspace(-0.003, 0.003, 5)`. -/
structure OrmArgs where
  scan : List ℚ := [-3/1000, -3/2000, 0, 3/2000, 3/1000]
  cor_field : String := "ANG"
  orb_field : List String := ["X", "Y"]
  xoy : String := "xy"
  wait : ℚ := 1

/-- `get_orbit(monitors, **kws)`: for each `(i, fld)` in
`zip(range(len(xoy)), orb_field)` read every monitor's field `fld`, then
flatten.  `zip` truncates to the shorter list, so only the first
`len(xoy)` entries of `orb_field` are ever read. -/
def get_orbit (env : Env) (s : Settings) (monitors : List Nat)
    (orb_field : List String) (xoy : String) : List ℚ :=
  (((List.range xoy.length).zip orb_field).map
    (fun p => monitors.map (fun e => env s e p.2))).flatten

/-- The `getattr` events performed by one `get_orbit` call. -/
def get_orbit_events (env : Env) (s : Settings) (monitors : List Nat)
    (orb_field : List String) (xoy : String) : List Event :=
  (((List.range xoy.length).zip orb_field).map
    (fun p => monitors.map (fun e => Event.getE e p.2 (env s e p.2)))).flatten

/-- Slope (leading coefficient) returned by `np.polyfit(xs, ys, 1)`:
the closed-form least-squares solution
`(n·Σxy − Σx·Σy) / (n·Σx² − (Σx)²)`. -/
def polyfit_slope (xs ys : List ℚ) : ℚ :=
  let n : ℚ := xs.length
  let sx := xs.sum
  let sy := ys.sum
  let sxy := ((xs.zip ys).map (fun p => p.1 * p.2)).sum
  let sxx := (xs.map (fun x => x * x)).sum
  (n * sxy - sx * sy) / (n * sxx - sx * sx)

/-- Intercept of the degree-1 least-squares fit, `(Σy − a·Σx)/n` for
slope `a` (the second coefficient `np.polyfit` returns). -/
def polyfit_intercept (xs ys : List ℚ) : ℚ :=
  (ys.sum - polyfit_slope xs ys * xs.sum) / (xs.length : ℚ)

/-- Sum of squared residuals of the line `y = a·x + b` over the data
`zip xs ys`. -/
def sse (xs ys : List ℚ) (a b : ℚ) : ℚ :=
  ((xs.zip ys).map (fun p => (a * p.1 + b - p.2) ^ 2)).sum

/-- The inner scan loop shared textually by `get_orm` (lines 95–104) and
`get_orm_for_one_corrector` (lines 171–180): for each scan value, set the
corrector field, sleep, read the orbit; returns the final settings, the
event trace and the recorded orbit rows (`orbit_arr`). -/
def scan_loop (env : Env) (monitors : List Nat) (a : OrmArgs) (c : Nat) :
    List ℚ → Settings → Settings × List Event × List (List ℚ)
  | [], s => (s, [], [])
  | v :: vs, s =>
    let s1 := setf s c a.cor_field v
    let rest := scan_loop env monitors a c vs s1
    (rest.1,
     Event.setE c a.cor_field v :: Event.sleepE a.wait ::
       (get_orbit_events env s1 monitors a.orb_field a.xoy ++ rest.2.1),
     get_orbit env s1 monitors a.orb_field a.xoy :: rest.2.2)

/-- One column of the ORM from the recorded rows:
`[np.polyfit(scan, orbit_arr[:, k], 1)[0] for k in range(m)]`. -/
def orm_column (scan : List ℚ) (m : Nat) (rows : List (List ℚ)) : List ℚ :=
  (List.range m).map (fun k => polyfit_slope scan (rows.map (fun r => r.getD k 0)))

/-- Body of one iteration of `get_orm`'s outer corrector loop: read the
current corrector value (`cor_val0`), run the scan loop, restore the
corrector.  Returns final settings, events and recorded rows. -/
def cor_step (env : Env) (monitors : List Nat) (a : OrmArgs) (c : Nat)
    (s : Settings) : Settings × List Event × List (List ℚ) :=
  let v0 := s c a.cor_field
  let r := scan_loop env monitors a c a.scan s
  (setf r.1 c a.cor_field v0,
   Event.getE c a.cor_field v0 :: (r.2.1 ++ [Event.setE c a.cor_field v0]),
   r.2.2)

/-- The outer corrector loop of `get_orm`: thread the settings through
each corrector, collect the event trace and the list of ORM columns. -/
def get_orm_run (env : Env) (monitors : List Nat) (a : OrmArgs) :
    List Nat → Settings → Settings × List Event × List (List ℚ)
  | [], s => (s, [], [])
  | c :: cs, s =>
    let r1 := cor_step env monitors a c s
    let rest := get_orm_run env monitors a cs r1.1
    (rest.1, r1.2.1 ++ rest.2.1,
     orm_column a.scan (monitors.length * a.xoy.length) r1.2.2 :: rest.2.2)

/-- `get_orm(correctors, monitors, **kws)`, value part: the ORM as its
list of columns (column `i` for corrector `i`, each column of length
`m = len(monitors) * len(xoy)`).  `source` and `lattice` are read from
the keyword arguments into locals the function never uses (the
docstring's Todo notes the `source == 'model'` case is unimplemented). -/
def get_orm (env : Env) (correctors monitors : List Nat)
    (source : String) (lattice : Option Unit) (a : OrmArgs)
    (s : Settings) : List (List ℚ) :=
  (get_orm_run env monitors a correctors s).2.2

/-- Event trace of a `get_orm` call. -/
def get_orm_events (env : Env) (correctors monitors : List Nat)
    (a : OrmArgs) (s : Settings) : List Event :=
  (get_orm_run env monitors a correctors s).2.1

/-- Settings after a `get_orm` call returns. -/
def get_orm_final (env : Env) (correctors monitors : List Nat)
    (a : OrmArgs) (s : Settings) : Settings :=
  (get_orm_run env monitors a correctors s).1

/-- `get_orm_for_one_corrector(corrector, monitors, **kws)`: run the
scan loop for one corrector, restore it, and fit one ORM column.
Returns final settings, events and the column. -/
def one_cor_run (env : Env) (c : Nat) (monitors : List Nat) (a : OrmArgs)
    (s : Settings) : Settings × List Event × List ℚ :=
  let v0 := s c a.cor_field
  let r := scan_loop env monitors a c a.scan s
  (setf r.1 c a.cor_field v0,
   Event.getE c a.cor_field v0 :: (r.2.1 ++ [Event.setE c a.cor_field v0]),
   orm_column a.scan (monitors.length * a.xoy.length) r.2.2)

/-- Value returned by `get_orm_for_one_corrector`. -/
def get_orm_for_one_corrector (env : Env) (c : Nat) (monitors : List Nat)
    (a : OrmArgs) (s : Settings) : List ℚ :=
  (one_cor_run env c monitors a s).2.2

/-! ### SVD-based matrix inversion (`inverse_matrix`, lines 195–218)

`numpy.linalg.svd(m)` is an external library call returning `U, s, V`
with `m = U @ diag-embed(s) @ V` (numpy's third return value is already
the transposed factor), `U` and `V` square orthogonal and `s` of length
`min(M, N)`.  We embed the call's output as parameters `U`, `s`, `Vh`
constrained by those equations in the theorems.  The code then builds
`S_inv` of the transposed shape with `1.0/s` on the diagonal and returns
`V.T @ S_inv @ U.T`.  In IEEE arithmetic `1.0/s` on a zero singular
value yields a non-finite entry (numpy emits a divide-by-zero warning
and the result matrix holds `inf`), so the result is not a valid finite
matrix; the embedding returns `none` in that case and the finite matrix
otherwise. -/

/-- The singular-value vector padded to a total function on indices:
`s i` for `i < min M N` and `0` beyond (the diagonal blocks of the SVD
factors are zero outside the leading `min M N` entries). -/
def svext (M N : Nat) (s : Fin (min M N) → ℚ) : Nat → ℚ :=
  fun n => if h : n < min M N then s ⟨n, h⟩ else 0

/-- The `M × N` matrix with the singular values `s` on its leading
diagonal: the factor `diag-embed(s)` of the SVD `m = U Σ Vh`. -/
def Sdiag (M N : Nat) (s : Fin (min M N) → ℚ) : Matrix (Fin M) (Fin N) ℚ :=
  Matrix.of fun i j =>
    if (i : Nat) = (j : Nat) then svext M N s i else 0

/-- `S_inv = np.zeros(m.shape[::-1]); S_inv[:min_shape, :min_shape] =
np.diag(1.0/s)`: the `N × M` matrix with the reciprocal singular values
on its leading diagonal.  (With every `s i ≠ 0` — the only case in which
`inverse_matrix` returns a matrix — `(svext M N s i)⁻¹` is `(s i)⁻¹` on
the leading diagonal and `0` beyond, exactly the zero-initialized
`np.zeros` block.) -/
def S_inv (M N : Nat) (s : Fin (min M N) → ℚ) : Matrix (Fin N) (Fin M) ℚ :=
  Matrix.of fun i j =>
    if (i : Nat) = (j : Nat) then (svext M N s i)⁻¹ else 0

/-- `inverse_matrix(m)` for `m` of shape `(M, N)` whose SVD factors are
`U, s, Vh`: returns `V.T @ S_inv @ U.T` of the transposed shape, or
`none` when a singular value is zero (then `1.0/s` floods the result
with non-finite IEEE values instead of a matrix). -/
def inverse_matrix (M N : Nat) (U : Matrix (Fin M) (Fin M) ℚ)
    (s : Fin (min M N) → ℚ) (Vh : Matrix (Fin N) (Fin N) ℚ) :
    Option (Matrix (Fin N) (Fin M) ℚ) :=
  if (∀ i, s i ≠ 0) then some (Vh.transpose * S_inv M N s * U.transpose)
  else none

/-- The two pseudo-inverse equations the specification names:
`m · p · m = m` and `p · m · p = p`. -/
def IsPseudoInverse {M N : Nat} (m : Matrix (Fin M) (Fin N) ℚ)
    (p : Matrix (Fin N) (Fin M) ℚ) : Prop :=
  m * p * m = m ∧ p * m * p = p

/-- `get_correctors_settings(orm, orbit_diff, inverse)` (lines 249–277).
The Python argument `orm` holds an `(M, N)` response matrix when
`inverse=False` and an already-inverted `(N, M)` matrix when
`inverse=True`, so the typed embedding carries it in two forms, one per
branch.  When `inverse=False` the matrix enters only through the call
`inverse_matrix(orm)`, i.e. through its SVD factors `U`, `s`, `Vh`
(the output of the `linalg.svd(orm)` call inside `inverse_matrix`),
whose product is multiplied onto `orbit_diff`; when `inverse=True` the
given matrix `orm_inv_given` is multiplied onto `orbit_diff` directly. -/
def get_correctors_settings (M N : Nat) (U : Matrix (Fin M) (Fin M) ℚ)
    (s : Fin (min M N) → ℚ) (Vh : Matrix (Fin N) (Fin N) ℚ)
    (orm_inv_given : Matrix (Fin N) (Fin M) ℚ)
    (orbit_diff : Fin M → ℚ) (inverse : Bool) : Option (Fin N → ℚ) :=
  if inverse then some (orm_inv_given.mulVec orbit_diff)
  else (inverse_matrix M N U s Vh).map (fun p => p.mulVec orbit_diff)

/-! ### Index grid for sub-ORM extraction (`get_index_grid`, lines 280–317) -/

/-- The element lists a high-level lattice answers through
`lattice.get_elements(type='HCOR' | 'VCOR' | 'BPM')`; elements are plain
ids.  `get_index_grid` only consumes these three query results. -/
structure Lattice where
  hcor : List Nat
  vcor : List Nat
  bpm : List Nat

/-- `get_index_grid(lattice, correctors, monitors, xoy)`: column indices
are `all_cors.index(c)` over `all_cors = HCOR + VCOR`; row indices come
from `all_bpms.index(b)`, offset by the BPM count for the `y` rows.
`np.ix_`'s open mesh is embedded as the pair (row list, column list).
For an `xoy` outside `{xy, x, y}` the Python function leaves `row_idx`
unbound and raises; the embedding returns `none`. -/
def get_index_grid (lat : Lattice) (correctors monitors : List Nat)
    (xoy : String) : Option (List Nat × List Nat) :=
  let all_cors := lat.hcor ++ lat.vcor
  let all_bpms := lat.bpm
  let col_idx := correctors.map (fun c => all_cors.indexOf c)
  let bpm_idx := monitors.map (fun b => all_bpms.indexOf b)
  if xoy = "xy" then
    some (bpm_idx ++ bpm_idx.map (fun i => i + all_bpms.length), col_idx)
  else if xoy = "x" then
    some (bpm_idx, col_idx)
  else if xoy = "y" then
    some (bpm_idx.map (fun i => i + all_bpms.length), col_idx)
  else
    none

/-- Applying an index grid to a (row-indexed, column-indexed) global
matrix: `global_orm[np.ix_(rows, cols)][r][c] = global_orm[rows[r]][cols[c]]`. -/
def subgrid (g : Nat → Nat → ℚ) (rows cols : List Nat) : Nat → Nat → ℚ :=
  fun r c => g (rows.getD r 0) (cols.getD c 0)

/-! ### Basic lemmas about the attribute store and the scan loop -/

lemma setf_same (s : Settings) (e : Nat) (f : String) (v : ℚ) :
    setf s e f v e f = v := by
  simp [setf]

lemma setf_other (s : Settings) (e : Nat) (f : String) (v : ℚ)
    (e' : Nat) (f' : String) (h : ¬(e' = e ∧ f' = f)) :
    setf s e f v e' f' = s e' f' := by
  simp [setf, h]

lemma setf_setf (s : Settings) (e : Nat) (f : String) (v w : ℚ) :
    setf (setf s e f v) e f w = setf s e f w := by
  funext e' f'
  by_cases h : e' = e ∧ f' = f <;> simp [setf, h]

/-- The scan loop touches no field other than the scanned corrector's
`cor_field`. -/
lemma scan_loop_fst (env : Env) (mons : List Nat) (a : OrmArgs) (c : Nat) :
    ∀ (vs : List ℚ) (s : Settings) (e : Nat) (g : String),
      ¬(e = c ∧ g = a.cor_field) →
      (scan_loop env mons a c vs s).1 e g = s e g
  | [], _, _, _, _ => rfl
  | v :: vs, s, e, g, h => by
    show (scan_loop env mons a c vs (setf s c a.cor_field v)).1 e g = s e g
    rw [scan_loop_fst env mons a c vs _ e g h, setf_other _ _ _ _ _ _ h]

/-- Closed form of the recorded orbit rows: row `j` is the orbit read
with the corrector set to scan value `j` on top of the entry state. -/
lemma scan_loop_rows (env : Env) (mons : List Nat) (a : OrmArgs) (c : Nat) :
    ∀ (vs : List ℚ) (s : Settings),
      (scan_loop env mons a c vs s).2.2
        = vs.map (fun v =>
            get_orbit env (setf s c a.cor_field v) mons a.orb_field a.xoy)
  | [], _ => rfl
  | v :: vs, s => by
    show get_orbit env (setf s c a.cor_field v) mons a.orb_field a.xoy ::
        (scan_loop env mons a c vs (setf s c a.cor_field v)).2.2 = _
    rw [scan_loop_rows env mons a c vs (setf s c a.cor_field v)]
    simp [setf_setf]

/-- Closed form of the scan-loop event trace. -/
lemma scan_loop_events (env : Env) (mons : List Nat) (a : OrmArgs) (c : Nat) :
    ∀ (vs : List ℚ) (s : Settings),
      (scan_loop env mons a c vs s).2.1
        = vs.flatMap (fun v =>
            Event.setE c a.cor_field v :: Event.sleepE a.wait ::
              get_orbit_events env (setf s c a.cor_field v) mons
                a.orb_field a.xoy)
  | [], _ => rfl
  | v :: vs, s => by
    show Event.setE c a.cor_field v :: Event.sleepE a.wait ::
        (get_orbit_events env (setf s c a.cor_field v) mons a.orb_field a.xoy
          ++ (scan_loop env mons a c vs (setf s c a.cor_field v)).2.1) = _
    rw [scan_loop_events env mons a c vs (setf s c a.cor_field v)]
    simp [setf_setf, List.flatMap_cons]

/-- Each iteration of the outer corrector loop restores the settings it
started from: the corrector is reset to `cor_val0` and nothing else was
written. -/
lemma cor_step_fst (env : Env) (mons : List Nat) (a : OrmArgs) (c : Nat)
    (s : Settings) : (cor_step env mons a c s).1 = s := by
  funext e g
  show setf (scan_loop env mons a c a.scan s).1 c a.cor_field
      (s c a.cor_field) e g = s e g
  by_cases h : e = c ∧ g = a.cor_field
  · obtain ⟨he, hg⟩ := h
    subst he; subst hg
    rw [setf_same]
  · rw [setf_other _ _ _ _ _ _ h, scan_loop_fst env mons a c _ _ _ _ h]

lemma get_orm_run_fst (env : Env) (mons : List Nat) (a : OrmArgs) :
    ∀ (cs : List Nat) (s : Settings), (get_orm_run env mons a cs s).1 = s
  | [], _ => rfl
  | c :: cs, s => by
    show (get_orm_run env mons a cs (cor_step env mons a c s).1).1 = s
    rw [cor_step_fst, get_orm_run_fst env mons a cs s]

/-- Closed form of the ORM columns: every corrector's column is fitted
from rows read on top of the initial settings, because each previous
corrector was restored before the next one is scanned. -/
lemma get_orm_run_cols (env : Env) (mons : List Nat) (a : OrmArgs) :
    ∀ (cs : List Nat) (s : Settings),
      (get_orm_run env mons a cs s).2.2
        = cs.map (fun c => orm_column a.scan (mons.length * a.xoy.length)
            ((scan_loop env mons a c a.scan s).2.2))
  | [], _ => rfl
  | c :: cs, s => by
    show orm_column a.scan (mons.length * a.xoy.length)
          (scan_loop env mons a c a.scan s).2.2 ::
        (get_orm_run env mons a cs (cor_step env mons a c s).1).2.2 = _
    rw [cor_step_fst, get_orm_run_cols env mons a cs s, List.map_cons]

/-- Closed form of the whole `get_orm` event trace: the per-corrector
traces, each taken from the initial settings, in corrector order. -/
lemma get_orm_run_events (env : Env) (mons : List Nat) (a : OrmArgs) :
    ∀ (cs : List Nat) (s : Settings),
      (get_orm_run env mons a cs s).2.1
        = cs.flatMap (fun c => (cor_step env mons a c s).2.1)
  | [], _ => rfl
  | c :: cs, s => by
    show (cor_step env mons a c s).2.1 ++
        (get_orm_run env mons a cs (cor_step env mons a c s).1).2.1 = _
    rw [cor_step_fst, get_orm_run_events env mons a cs s, List.flatMap_cons]

/-! ### The nested-loop trace (claims C7 and C8) -/

/-- Recognize a `time.sleep` event. -/
def isSleepE : Event → Bool
  | Event.sleepE _ => true
  | _ => false

/-- The per-corrector hardware trace the code performs: read the
corrector's current value, then for each scan value in order exactly one
`setattr` of the scan value, one fixed-length `sleep` and one pass of
monitor reads — never a retry — and finally one restoring `setattr`. -/
def corrector_trace (env : Env) (mons : List Nat) (a : OrmArgs)
    (s : Settings) (c : Nat) : List Event :=
  Event.getE c a.cor_field (s c a.cor_field) ::
    (a.scan.flatMap (fun v =>
        Event.setE c a.cor_field v :: Event.sleepE a.wait ::
          get_orbit_events env (setf s c a.cor_field v) mons
            a.orb_field a.xoy)
      ++ [Event.setE c a.cor_field (s c a.cor_field)])

lemma cor_step_events (env : Env) (mons : List Nat) (a : OrmArgs) (c : Nat)
    (s : Settings) :
    (cor_step env mons a c s).2.1 = corrector_trace env mons a s c := by
  show Event.getE c a.cor_field (s c a.cor_field) ::
      ((scan_loop env mons a c a.scan s).2.1
        ++ [Event.setE c a.cor_field (s c a.cor_field)]) = _
  rw [scan_loop_events]
  rfl

lemma get_orbit_events_mem (env : Env) (s : Settings) (mons : List Nat)
    (orb : List String) (xoy : String) (ev : Event)
    (h : ev ∈ get_orbit_events env s mons orb xoy) :
    ∃ e f v, ev = Event.getE e f v := by
  simp only [get_orbit_events, List.mem_flatten, List.mem_map] at h
  obtain ⟨l, ⟨p, _, rfl⟩, hev⟩ := h
  obtain ⟨e, _, rfl⟩ := List.mem_map.mp hev
  exact ⟨e, p.2, env s e p.2, rfl⟩

lemma get_orbit_events_countP_sleep (env : Env) (s : Settings)
    (mons : List Nat) (orb : List String) (xoy : String) :
    (get_orbit_events env s mons orb xoy).countP isSleepE = 0 := by
  rw [List.countP_eq_zero]
  intro ev h
  obtain ⟨e, f, v, rfl⟩ := get_orbit_events_mem env s mons orb xoy ev h
  simp [isSleepE]

lemma sleep_count_blocks (env : Env) (mons : List Nat) (a : OrmArgs)
    (c : Nat) (s : Settings) :
    ∀ vs : List ℚ,
      (vs.flatMap (fun v =>
          Event.setE c a.cor_field v :: Event.sleepE a.wait ::
            get_orbit_events env (setf s c a.cor_field v) mons
              a.orb_field a.xoy)).countP isSleepE = vs.length
  | [] => rfl
  | v :: vs => by
    rw [List.flatMap_cons, List.countP_append,
      sleep_count_blocks env mons a c s vs]
    simp [List.countP_cons, isSleepE, get_orbit_events_countP_sleep,
      Nat.add_comm]

lemma corrector_trace_countP_sleep (env : Env) (mons : List Nat)
    (a : OrmArgs) (s : Settings) (c : Nat) :
    (corrector_trace env mons a s c).countP isSleepE = a.scan.length := by
  rw [corrector_trace, List.countP_cons]
  rw [List.countP_append, sleep_count_blocks env mons a c s a.scan]
  simp [isSleepE, List.countP_cons]

lemma flatMap_corrector_trace_count (env : Env) (mons : List Nat)
    (a : OrmArgs) (s : Settings) :
    ∀ cs : List Nat,
      ((cs.flatMap (corrector_trace env mons a s)).countP isSleepE)
        = cs.length * a.scan.length
  | [] => by simp
  | c :: cs => by
    rw [List.flatMap_cons, List.countP_append,
      corrector_trace_countP_sleep env mons a s c,
      flatMap_corrector_trace_count env mons a s cs]
    simp [List.length_cons]
    ring

/-- Every `setattr` event of the per-corrector trace writes the scanned
corrector's `cor_field`. -/
lemma corrector_trace_setE (env : Env) (mons : List Nat) (a : OrmArgs)
    (s : Settings) (c : Nat) (e : Nat) (f : String) (v : ℚ)
    (h : Event.setE e f v ∈ corrector_trace env mons a s c) :
    e = c ∧ f = a.cor_field := by
  simp only [corrector_trace, List.mem_cons, List.mem_append,
    List.mem_flatMap, List.not_mem_nil, or_false] at h
  rcases h with h | ⟨w, _, h | h | h⟩ | h
  · exact Event.noConfusion h
  · obtain ⟨he, hf, _⟩ := Event.setE.inj h
    exact ⟨he, hf⟩
  · exact Event.noConfusion h
  · obtain ⟨_, _, _, heq⟩ := get_orbit_events_mem _ _ _ _ _ _ h
    exact Event.noConfusion heq
  · obtain ⟨he, hf, _⟩ := Event.setE.inj h
    exact ⟨he, hf⟩

/-! ### Claim theorems about the scan loop -/

/-- C3: `get_orm` does not branch on its `source` keyword.  The function
reads `source` and `lattice` into locals and never uses them, so a call
with `source='model'` measures exactly as a call with `source='control'`
does — the orbit data always comes from `getattr` on the monitor
elements, never from a FLAME/IMPACT model (the docstring's Todo admits
the model case is unimplemented).  This refutes the claim that
`source='model'` switches the data source. -/
theorem get_orm_ignores_source_and_lattice (env : Env)
    (correctors monitors : List Nat) (src1 src2 : String)
    (lat1 lat2 : Option Unit) (a : OrmArgs) (s : Settings) :
    get_orm env correctors monitors src1 lat1 a s
      = get_orm env correctors monitors src2 lat2 a s := rfl

/-- C4: the matrix `get_orm` returns has one column per corrector and
`m = len(monitors) * len(xoy)` entries per column (rows doubled when
both directions are monitored).  The hypothesis keeps `len(xoy)` within
`len(orb_field)`; beyond it the `orbit_arr[iscan] = get_orbit(...)`
assignment would raise a shape error in numpy and nothing would be
returned. -/
theorem get_orm_shape (env : Env) (correctors monitors : List Nat)
    (source : String) (lattice : Option Unit) (a : OrmArgs) (s : Settings)
    (hlen : a.xoy.length ≤ a.orb_field.length) :
    (get_orm env correctors monitors source lattice a s).length
        = correctors.length
    ∧ ∀ col ∈ get_orm env correctors monitors source lattice a s,
        col.length = monitors.length * a.xoy.length := by
  constructor
  · rw [get_orm, get_orm_run_cols]
    exact List.length_map _ _
  · intro col hcol
    rw [get_orm, get_orm_run_cols] at hcol
    obtain ⟨c, _, rfl⟩ := List.mem_map.mp hcol
    simp [orm_column]

theorem get_orm_shape_witness :
    ("xy".length ≤ ["X", "Y"].length)
    ∧ (get_orm (fun _ _ _ => 0) [1, 2] [3] "control" none {}
          (fun _ _ => 0)).length = 2
    ∧ ∀ col ∈ get_orm (fun _ _ _ => 0) [1, 2] [3] "control" none {}
          (fun _ _ => 0), col.length = 1 * 2 := by
  refine ⟨by decide, ?_⟩
  have h := get_orm_shape (fun _ _ _ => 0) [1, 2] [3] "control" none {}
    (fun _ _ => 0) (by decide)
  simpa using h

/-- C7: the measurement is one strictly sequential nested loop — outer
over correctors, inner over scan values.  The complete hardware trace is
the concatenation, in corrector order, of per-corrector traces, each of
which is one corrector readback, then for each scan value in order
exactly one `setattr` of the scan value, one `sleep` of the fixed
duration `wait` and one pass of monitor reads with no retry, then one
restoring `setattr`; in particular the number of sleep-measure steps is
exactly `len(correctors) * len(scan)`. -/
theorem get_orm_trace_nested_loop (env : Env)
    (correctors monitors : List Nat) (a : OrmArgs) (s : Settings) :
    get_orm_events env correctors monitors a s
        = correctors.flatMap (corrector_trace env monitors a s)
    ∧ (get_orm_events env correctors monitors a s).countP isSleepE
        = correctors.length * a.scan.length := by
  have h1 : get_orm_events env correctors monitors a s
      = correctors.flatMap (corrector_trace env monitors a s) := by
    rw [get_orm_events, get_orm_run_events]
    simp only [cor_step_events]
  exact ⟨h1, by rw [h1, flatMap_corrector_trace_count]⟩

/-- C8: a completed scan leaves every actuator exactly where it was:
the settings after `get_orm` (and after `get_orm_for_one_corrector`)
equal the settings before, and every `setattr` the scan ever performs
writes a scanned corrector's `cor_field` — no monitor field is ever
written. -/
theorem scan_restores_correctors_and_writes_no_monitor (env : Env)
    (correctors monitors : List Nat) (c : Nat) (a : OrmArgs)
    (s : Settings) :
    (get_orm_final env correctors monitors a s = s
      ∧ ∀ e f v, Event.setE e f v ∈ get_orm_events env correctors monitors a s →
          e ∈ correctors ∧ f = a.cor_field)
    ∧ ((one_cor_run env c monitors a s).1 = s
      ∧ ∀ e f v, Event.setE e f v ∈ (one_cor_run env c monitors a s).2.1 →
          e = c ∧ f = a.cor_field) := by
  refine ⟨⟨get_orm_run_fst env monitors a correctors s, ?_⟩,
    cor_step_fst env monitors a c s, ?_⟩
  · intro e f v h
    rw [get_orm_events, get_orm_run_events] at h
    obtain ⟨c', hc', hmem⟩ := List.mem_flatMap.mp h
    rw [cor_step_events] at hmem
    obtain ⟨he, hf⟩ := corrector_trace_setE env monitors a s c' e f v hmem
    exact ⟨he ▸ hc', hf⟩
  · intro e f v h
    exact corrector_trace_setE env monitors a s c e f v
      ((cor_step_events env monitors a c s) ▸ h)

/-- C9: with orbit readings a deterministic function of the corrector
settings (the type of `Env`), column `i` of `get_orm` equals the column
`get_orm_for_one_corrector` computes for `correctors[i]` with the same
keyword arguments from the same initial settings: each corrector is
restored before the next is scanned, so every column starts from the
initial state. -/
theorem get_orm_column_refines_one_corrector (env : Env)
    (correctors monitors : List Nat) (source : String)
    (lattice : Option Unit) (a : OrmArgs) (s : Settings) (i : Nat)
    (hi : i < correctors.length) :
    (get_orm env correctors monitors source lattice a s).getD i []
      = get_orm_for_one_corrector env (correctors.getD i 0) monitors a s := by
  have hcols := get_orm_run_cols env monitors a correctors s
  have hlen : i < (get_orm env correctors monitors source lattice a s).length := by
    rw [get_orm, hcols, List.length_map]
    exact hi
  rw [List.getD_eq_getElem _ _ hlen, List.getD_eq_getElem _ _ hi]
  simp only [get_orm, hcols, List.getElem_map]
  rfl

theorem get_orm_column_refines_one_corrector_witness :
    (0 : Nat) < [5].length
    ∧ (get_orm (fun st _ _ => st 5 "ANG") [5] [7] "control" none {}
          (fun _ _ => 0)).getD 0 []
        = get_orm_for_one_corrector (fun st _ _ => st 5 "ANG") 5 [7] {}
            (fun _ _ => 0) :=
  ⟨by decide,
   get_orm_column_refines_one_corrector (fun st _ _ => st 5 "ANG") [5] [7]
     "control" none {} (fun _ _ => 0) 0 (by decide)⟩

/-- C10: `get_orbit` pairs `range(len(xoy))` with `orb_field` by
position, so `xoy='y'` with the default `orb_field=('X','Y')` reads the
monitors' `X` fields — one reading per monitor — and not their `Y`
fields (witnessed by an environment whose `X` and `Y` readings differ). -/
theorem get_orbit_y_selects_first_field :
    (∀ (env : Env) (s : Settings) (monitors : List Nat),
      get_orbit env s monitors ["X", "Y"] "y"
          = monitors.map (fun e => env s e "X")
      ∧ (get_orbit env s monitors ["X", "Y"] "y").length = monitors.length)
    ∧ ∃ (env : Env) (s : Settings) (monitors : List Nat),
        get_orbit env s monitors ["X", "Y"] "y"
          ≠ monitors.map (fun e => env s e "Y") := by
  constructor
  · intro env s monitors
    have hz : (List.range ("y".length)).zip ["X", "Y"] = [((0 : Nat), "X")] := rfl
    constructor
    · rw [get_orbit, hz]
      simp
    · rw [get_orbit, hz]
      simp
  · refine ⟨fun _ _ f => if f = "Y" then 1 else 0, fun _ _ => 0, [0], ?_⟩
    decide

/-! ### Least-squares content of the column fit (claim C1) -/

/-- The orbit readings of monitor row `k` recorded while corrector `c`
is scanned: for each scan value in order, the `k`-th entry of the orbit
read with `c`'s `cor_field` set to that value on top of the initial
settings (every earlier corrector having been restored). -/
def recorded_readings (env : Env) (mons : List Nat) (a : OrmArgs)
    (c k : Nat) (s : Settings) : List ℚ :=
  a.scan.map (fun v =>
    (get_orbit env (setf s c a.cor_field v) mons a.orb_field a.xoy).getD k 0)

/-- Expansion of the residual sum of squares into the moment sums. -/
lemma sse_expand (a b : ℚ) :
    ∀ (xs ys : List ℚ), xs.length = ys.length →
      sse xs ys a b
        = a ^ 2 * (xs.map (fun x => x * x)).sum
          + (xs.length : ℚ) * b ^ 2
          + (ys.map (fun y => y * y)).sum
          + 2 * a * b * xs.sum
          - 2 * a * ((xs.zip ys).map (fun p => p.1 * p.2)).sum
          - 2 * b * ys.sum
  | [], [], _ => by simp [sse]
  | [], y :: ys, h => by simp at h
  | x :: xs, [], h => by simp at h
  | x :: xs, y :: ys, h => by
    have ih := sse_expand a b xs ys (by simpa using h)
    simp only [sse] at ih ⊢
    simp only [List.zip_cons_cons, List.map_cons, List.sum_cons,
      List.length_cons]
    rw [ih]
    push_cast
    ring

/-- Minimality of the critical point of the residual quadratic: any
slope and intercept `(aa, bb)` give at least the residual of the
normal-equations solution `(ah, bh)`, strictly when `aa ≠ ah`. -/
lemma quad_min (n sx sy sxy sxx syy aa bb ah bh : ℚ) (hn : 0 < n)
    (hD : 0 < n * sxx - sx * sx)
    (hah : ah * (n * sxx - sx * sx) = n * sxy - sx * sy)
    (hbh : bh * n = sy - ah * sx) :
    (ah ^ 2 * sxx + n * bh ^ 2 + syy + 2 * ah * bh * sx
        - 2 * ah * sxy - 2 * bh * sy
      ≤ aa ^ 2 * sxx + n * bb ^ 2 + syy + 2 * aa * bb * sx
        - 2 * aa * sxy - 2 * bb * sy)
    ∧ (aa ≠ ah →
      ah ^ 2 * sxx + n * bh ^ 2 + syy + 2 * ah * bh * sx
          - 2 * ah * sxy - 2 * bh * sy
        < aa ^ 2 * sxx + n * bb ^ 2 + syy + 2 * aa * bb * sx
          - 2 * aa * sxy - 2 * bb * sy) := by
  have key : n * ((aa ^ 2 * sxx + n * bb ^ 2 + syy + 2 * aa * bb * sx
        - 2 * aa * sxy - 2 * bb * sy)
      - (ah ^ 2 * sxx + n * bh ^ 2 + syy + 2 * ah * bh * sx
        - 2 * ah * sxy - 2 * bh * sy))
      = (n * (bb - bh) + sx * (aa - ah)) ^ 2
        + (n * sxx - sx * sx) * (aa - ah) ^ 2 := by
    linear_combination (2 * (aa - ah)) * hah
      + (2 * sx * (aa - ah) + 2 * n * (bb - bh)) * hbh
  constructor
  · nlinarith [key, sq_nonneg (n * (bb - bh) + sx * (aa - ah)),
      mul_nonneg hD.le (sq_nonneg (aa - ah)), hn]
  · intro hne
    have h2 : 0 < (aa - ah) ^ 2 :=
      lt_of_le_of_ne (sq_nonneg _)
        (Ne.symm (pow_ne_zero 2 (sub_ne_zero.mpr hne)))
    nlinarith [key, sq_nonneg (n * (bb - bh) + sx * (aa - ah)),
      mul_pos hD h2, hn]

/-- `polyfit_slope`/`polyfit_intercept` really are the least-squares
line: every line has at least their residual sum of squares, and every
line of a different slope has strictly more. -/
lemma polyfit_slope_least_squares (xs ys : List ℚ)
    (hlen : xs.length = ys.length)
    (hD : 0 < (xs.length : ℚ) * (xs.map (fun x => x * x)).sum
        - xs.sum * xs.sum) (aa bb : ℚ) :
    (sse xs ys (polyfit_slope xs ys) (polyfit_intercept xs ys)
      ≤ sse xs ys aa bb)
    ∧ (aa ≠ polyfit_slope xs ys →
      sse xs ys (polyfit_slope xs ys) (polyfit_intercept xs ys)
        < sse xs ys aa bb) := by
  have hxs : xs ≠ [] := by
    rintro rfl
    norm_num at hD
  have hn : (0 : ℚ) < (xs.length : ℚ) := by
    exact_mod_cast List.length_pos.mpr hxs
  have hah : polyfit_slope xs ys
      * ((xs.length : ℚ) * (xs.map (fun x => x * x)).sum - xs.sum * xs.sum)
      = (xs.length : ℚ) * ((xs.zip ys).map (fun p => p.1 * p.2)).sum
        - xs.sum * ys.sum :=
    div_mul_cancel₀ _ (ne_of_gt hD)
  have hbh : polyfit_intercept xs ys * (xs.length : ℚ)
      = ys.sum - polyfit_slope xs ys * xs.sum :=
    div_mul_cancel₀ _ (ne_of_gt hn)
  rw [sse_expand (polyfit_slope xs ys) (polyfit_intercept xs ys) xs ys hlen,
    sse_expand aa bb xs ys hlen]
  exact quad_min _ _ _ _ _ _ aa bb _ _ hn hD hah hbh

/-- Entry `k` of a fitted ORM column is the fit of the rows' `k`-th
components against the scan values. -/
lemma orm_column_getD (scan : List ℚ) (m : Nat) (rows : List (List ℚ))
    (k : Nat) (hk : k < m) :
    (orm_column scan m rows).getD k 0
      = polyfit_slope scan (rows.map (fun r => r.getD k 0)) := by
  have hklen : k < (orm_column scan m rows).length := by
    simpa [orm_column] using hk
  rw [List.getD_eq_getElem _ _ hklen]
  simp [orm_column]

/-- C1: entry `(k, i)` of the matrix returned by `get_orm` is the slope
(leading coefficient) of the degree-1 least-squares fit of monitor row
`k`'s recorded readings against the scan values used while corrector `i`
was scanned; the matrix is assembled column by column, one column per
corrector (`get_orm` returns the list of those columns).  The last two
conjuncts certify the least-squares reading of `polyfit_slope`. -/
theorem orm_entry_is_polyfit_slope_of_recorded_readings (env : Env)
    (correctors monitors : List Nat) (source : String)
    (lattice : Option Unit) (a : OrmArgs) (s : Settings) (i k : Nat)
    (hi : i < correctors.length) (hk : k < monitors.length * a.xoy.length)
    (hD : 0 < (a.scan.length : ℚ) * (a.scan.map (fun x => x * x)).sum
        - a.scan.sum * a.scan.sum) :
    (((get_orm env correctors monitors source lattice a s).getD i []).getD k 0
        = polyfit_slope a.scan
            (recorded_readings env monitors a (correctors.getD i 0) k s))
    ∧ (∀ aa bb : ℚ,
        sse a.scan (recorded_readings env monitors a (correctors.getD i 0) k s)
            (polyfit_slope a.scan
              (recorded_readings env monitors a (correctors.getD i 0) k s))
            (polyfit_intercept a.scan
              (recorded_readings env monitors a (correctors.getD i 0) k s))
          ≤ sse a.scan
              (recorded_readings env monitors a (correctors.getD i 0) k s)
              aa bb)
    ∧ (∀ aa bb : ℚ, aa ≠ polyfit_slope a.scan
          (recorded_readings env monitors a (correctors.getD i 0) k s) →
        sse a.scan (recorded_readings env monitors a (correctors.getD i 0) k s)
            (polyfit_slope a.scan
              (recorded_readings env monitors a (correctors.getD i 0) k s))
            (polyfit_intercept a.scan
              (recorded_readings env monitors a (correctors.getD i 0) k s))
          < sse a.scan
              (recorded_readings env monitors a (correctors.getD i 0) k s)
              aa bb) := by
  have hcols := get_orm_run_cols env monitors a correctors s
  have hlen1 : i < (get_orm env correctors monitors source lattice a s).length := by
    rw [get_orm, hcols, List.length_map]
    exact hi
  have hrrlen : a.scan.length
      = (recorded_readings env monitors a (correctors.getD i 0) k s).length :=
    (List.length_map _ _).symm
  refine ⟨?_, ?_, ?_⟩
  · rw [List.getD_eq_getElem _ _ hlen1]
    have hgi : (get_orm env correctors monitors source lattice a s)[i]
        = orm_column a.scan (monitors.length * a.xoy.length)
            ((scan_loop env monitors a (correctors.getD i 0) a.scan s).2.2) := by
      simp only [get_orm, hcols, List.getElem_map]
      rw [List.getD_eq_getElem correctors 0 hi]
    rw [hgi, orm_column_getD _ _ _ _ hk,
      scan_loop_rows env monitors a (correctors.getD i 0) a.scan s,
      List.map_map]
    rfl
  · intro aa bb
    exact (polyfit_slope_least_squares a.scan _ hrrlen hD aa bb).1
  · intro aa bb hne
    exact (polyfit_slope_least_squares a.scan _ hrrlen hD aa bb).2 hne

theorem orm_entry_is_polyfit_slope_witness :
    ((0 : Nat) < [4].length ∧ (0 : Nat) < [9].length * "xy".length
      ∧ (0 : ℚ) < (([-3/1000, -3/2000, 0, 3/2000, 3/1000] : List ℚ).length : ℚ)
          * (([-3/1000, -3/2000, 0, 3/2000, 3/1000] : List ℚ).map
              (fun x => x * x)).sum
          - ([-3/1000, -3/2000, 0, 3/2000, 3/1000] : List ℚ).sum
            * ([-3/1000, -3/2000, 0, 3/2000, 3/1000] : List ℚ).sum)
    ∧ (((get_orm (fun st _ _ => st 4 "ANG") [4] [9] "control" none {}
            (fun _ _ => 0)).getD 0 []).getD 0 0
        = polyfit_slope ({} : OrmArgs).scan
            (recorded_readings (fun st _ _ => st 4 "ANG") [9] {} 4 0
              (fun _ _ => 0))) :=
  ⟨⟨by decide, by decide,
    by norm_num [List.sum_cons, List.sum_nil, List.map_cons, List.map_nil]⟩,
   (orm_entry_is_polyfit_slope_of_recorded_readings (fun st _ _ => st 4 "ANG")
     [4] [9] "control" none {} (fun _ _ => 0) 0 0 (by decide) (by decide)
     (by norm_num [List.sum_cons, List.sum_nil, List.map_cons,
       List.map_nil])).1⟩

/-! ### The SVD pseudo-inverse (claims C2 and C5) -/

/-- Projection onto the leading `r` coordinates. -/
def proj_leading (N r : Nat) : Matrix (Fin N) (Fin N) ℚ :=
  Matrix.of fun i j =>
    if (i : Nat) = (j : Nat) ∧ (i : Nat) < r then 1 else 0

lemma Sinv_mul_Sdiag (M N : Nat) (s : Fin (min M N) → ℚ)
    (hs : ∀ i, s i ≠ 0) :
    S_inv M N s * Sdiag M N s = proj_leading N (min M N) := by
  ext i j
  rw [Matrix.mul_apply]
  by_cases hiM : (i : Nat) < M
  · rw [Finset.sum_eq_single_of_mem (⟨(i : Nat), hiM⟩ : Fin M)
      (Finset.mem_univ _)]
    · simp only [S_inv, Sdiag, proj_leading, Matrix.of_apply, Fin.val_mk]
      rw [if_pos trivial]
      by_cases hij : (i : Nat) = (j : Nat)
      · rw [if_pos hij]
        by_cases hmin : (i : Nat) < min M N
        · rw [if_pos ⟨hij, hmin⟩]
          simp only [svext]
          rw [dif_pos hmin]
          exact inv_mul_cancel₀ (hs _)
        · rw [if_neg (fun h => hmin h.2)]
          simp only [svext]
          rw [dif_neg hmin, inv_zero, zero_mul]
      · rw [if_neg hij, mul_zero, if_neg (fun h => hij h.1)]
    · intro k _ hk
      have hik : ¬((i : Nat) = (k : Nat)) := fun he => hk (Fin.ext he.symm)
      simp only [S_inv, Matrix.of_apply]
      rw [if_neg hik, zero_mul]
  · have hmin : ¬((i : Nat) < min M N) :=
      fun h => hiM (lt_of_lt_of_le h (Nat.min_le_left M N))
    rw [Finset.sum_eq_zero, proj_leading, Matrix.of_apply,
      if_neg (fun h => hmin h.2)]
    intro k _
    have hik : ¬((i : Nat) = (k : Nat)) := fun he => hiM (he ▸ k.isLt)
    simp only [S_inv, Matrix.of_apply]
    rw [if_neg hik, zero_mul]

lemma Sdiag_mul_proj (M N : Nat) (s : Fin (min M N) → ℚ) :
    Sdiag M N s * proj_leading N (min M N) = Sdiag M N s := by
  ext i j
  rw [Matrix.mul_apply]
  rw [Finset.sum_eq_single_of_mem j (Finset.mem_univ _)]
  · simp only [Sdiag, proj_leading, Matrix.of_apply]
    by_cases hij : (i : Nat) = (j : Nat)
    · rw [if_pos hij]
      by_cases hj : (j : Nat) < min M N
      · have hcond : True ∧ (j : Nat) < min M N := ⟨trivial, hj⟩
        rw [if_pos hcond, mul_one]
      · have hncond : ¬(True ∧ (j : Nat) < min M N) := fun h => hj h.2
        rw [if_neg hncond, mul_zero]
        simp only [svext]
        rw [dif_neg (fun h => hj (hij ▸ h))]
    · rw [if_neg hij, zero_mul]
  · intro k _ hk
    have hkj : ¬((k : Nat) = (j : Nat)) := fun he => hk (Fin.ext he)
    simp only [proj_leading, Matrix.of_apply]
    rw [if_neg (fun h => hkj h.1), mul_zero]

lemma proj_mul_Sinv (M N : Nat) (s : Fin (min M N) → ℚ) :
    proj_leading N (min M N) * S_inv M N s = S_inv M N s := by
  ext i j
  rw [Matrix.mul_apply]
  rw [Finset.sum_eq_single_of_mem i (Finset.mem_univ _)]
  · simp only [S_inv, proj_leading, Matrix.of_apply]
    by_cases hi : (i : Nat) < min M N
    · have hcond : True ∧ (i : Nat) < min M N := ⟨trivial, hi⟩
      rw [if_pos hcond, one_mul]
    · have hncond : ¬(True ∧ (i : Nat) < min M N) := fun h => hi h.2
      rw [if_neg hncond, zero_mul]
      by_cases hij : (i : Nat) = (j : Nat)
      · rw [if_pos hij]
        simp only [svext]
        rw [dif_neg hi, inv_zero]
      · rw [if_neg hij]
  · intro k _ hk
    have hik : ¬((i : Nat) = (k : Nat)) := fun he => hk (Fin.ext he.symm)
    simp only [proj_leading, Matrix.of_apply]
    rw [if_neg (fun h => hik h.1), zero_mul]

/-- Cancel an orthogonality product in the middle of a chain. -/
lemma mul_mul_cancel {p q r : Nat} (A : Matrix (Fin p) (Fin q) ℚ)
    (B : Matrix (Fin q) (Fin p) ℚ) (C : Matrix (Fin p) (Fin r) ℚ)
    (h : A * B = 1) : A * (B * C) = C := by
  rw [← Matrix.mul_assoc, h, Matrix.one_mul]

/-- The matrix `inverse_matrix` builds from the SVD factors satisfies
the two pseudo-inverse equations whenever every singular value is
nonzero. -/
lemma svd_pseudo_inverse (M N : Nat) (U : Matrix (Fin M) (Fin M) ℚ)
    (s : Fin (min M N) → ℚ) (Vh : Matrix (Fin N) (Fin N) ℚ)
    (hU : U.transpose * U = 1) (hV : Vh * Vh.transpose = 1)
    (hs : ∀ i, s i ≠ 0) :
    IsPseudoInverse (U * Sdiag M N s * Vh)
      (Vh.transpose * S_inv M N s * U.transpose) := by
  constructor
  · simp only [Matrix.mul_assoc]
    rw [mul_mul_cancel Vh Vh.transpose _ hV,
      mul_mul_cancel U.transpose U _ hU]
    rw [← Matrix.mul_assoc (S_inv M N s) (Sdiag M N s) Vh,
      Sinv_mul_Sdiag M N s hs,
      ← Matrix.mul_assoc (Sdiag M N s) (proj_leading N (min M N)) Vh,
      Sdiag_mul_proj M N s]
  · simp only [Matrix.mul_assoc]
    rw [mul_mul_cancel U.transpose U _ hU,
      mul_mul_cancel Vh Vh.transpose _ hV,
      ← Matrix.mul_assoc (S_inv M N s) (Sdiag M N s) _,
      Sinv_mul_Sdiag M N s hs,
      ← Matrix.mul_assoc (proj_leading N (min M N)) (S_inv M N s) _,
      proj_mul_Sinv M N s]

/-- C2 (amended): for a full-rank rectangular `m` — every singular value
of the SVD `m = U Σ Vh` nonzero — `inverse_matrix` returns the matrix
`V.T @ S_inv @ U.T` of the transposed shape, and it satisfies both
pseudo-inverse equations `m·p·m = m` and `p·m·p = p`. -/
theorem inverse_matrix_full_rank_is_pseudo_inverse (M N : Nat)
    (U : Matrix (Fin M) (Fin M) ℚ) (s : Fin (min M N) → ℚ)
    (Vh : Matrix (Fin N) (Fin N) ℚ) (m : Matrix (Fin M) (Fin N) ℚ)
    (hm : m = U * Sdiag M N s * Vh)
    (hU : U.transpose * U = 1) (hV : Vh * Vh.transpose = 1)
    (hs : ∀ i, s i ≠ 0) :
    inverse_matrix M N U s Vh
        = some (Vh.transpose * S_inv M N s * U.transpose)
    ∧ IsPseudoInverse m (Vh.transpose * S_inv M N s * U.transpose) := by
  constructor
  · rw [inverse_matrix, if_pos hs]
  · rw [hm]
    exact svd_pseudo_inverse M N U s Vh hU hV hs

theorem inverse_matrix_full_rank_witness :
    ((1 : Matrix (Fin 1) (Fin 1) ℚ) * Sdiag 1 1 (fun _ => 2) * 1
        = 1 * Sdiag 1 1 (fun _ => 2) * 1)
    ∧ inverse_matrix 1 1 1 (fun _ => 2) 1
        = some ((1 : Matrix (Fin 1) (Fin 1) ℚ).transpose
            * S_inv 1 1 (fun _ => 2)
            * (1 : Matrix (Fin 1) (Fin 1) ℚ).transpose)
    ∧ IsPseudoInverse (1 * Sdiag 1 1 (fun _ => 2) * 1)
        ((1 : Matrix (Fin 1) (Fin 1) ℚ).transpose * S_inv 1 1 (fun _ => 2)
          * (1 : Matrix (Fin 1) (Fin 1) ℚ).transpose) := by
  have h := inverse_matrix_full_rank_is_pseudo_inverse 1 1 1 (fun _ => 2) 1
    (1 * Sdiag 1 1 (fun _ => 2) * 1) rfl (by simp) (by simp)
    (fun i => by norm_num)
  exact ⟨rfl, h.1, h.2⟩

/-- C2 (counterexample): for the rank-deficient input `m = [[0]]` —
whose SVD factors are `U = [[1]]`, `s = [0]`, `Vh = [[1]]`, as the first
conjunct certifies — `inverse_matrix` performs `1.0/0.0` and floods the
result with non-finite values instead of returning the pseudo-inverse
`[[0]]`; the embedding returns `none`, so no pseudo-inverse matrix is
returned for this `m`. -/
theorem inverse_matrix_zero_singular_value_returns_no_matrix :
    ((1 : Matrix (Fin 1) (Fin 1) ℚ) * Sdiag 1 1 (fun _ => 0) * 1
        = (0 : Matrix (Fin 1) (Fin 1) ℚ))
    ∧ ((1 : Matrix (Fin 1) (Fin 1) ℚ).transpose * 1 = 1)
    ∧ ((1 : Matrix (Fin 1) (Fin 1) ℚ) * (1 : Matrix (Fin 1) (Fin 1) ℚ).transpose = 1)
    ∧ inverse_matrix 1 1 1 (fun _ => 0) 1 = none
    ∧ IsPseudoInverse (0 : Matrix (Fin 1) (Fin 1) ℚ) 0 := by
  refine ⟨?_, by simp, by simp, ?_, by constructor <;> simp⟩
  · ext i j
    simp [Sdiag, svext]
  · rw [inverse_matrix, if_neg]
    intro h
    exact (h ⟨0, by decide⟩) rfl

/-- C5 (amended): `get_correctors_settings` with `inverse=False` and a
full-rank `orm` returns the product of the SVD pseudo-inverse of `orm`
(the matrix `inverse_matrix` produces, satisfying both pseudo-inverse
equations) with `orbit_diff`; with `inverse=True` it returns the product
of the given already-inverted matrix with `orbit_diff`. -/
theorem get_correctors_settings_spec (M N : Nat)
    (U : Matrix (Fin M) (Fin M) ℚ) (s : Fin (min M N) → ℚ)
    (Vh : Matrix (Fin N) (Fin N) ℚ) (orm : Matrix (Fin M) (Fin N) ℚ)
    (orm_inv_given : Matrix (Fin N) (Fin M) ℚ) (orbit_diff : Fin M → ℚ)
    (hm : orm = U * Sdiag M N s * Vh)
    (hU : U.transpose * U = 1) (hV : Vh * Vh.transpose = 1)
    (hs : ∀ i, s i ≠ 0) :
    (∃ p, inverse_matrix M N U s Vh = some p ∧ IsPseudoInverse orm p
      ∧ get_correctors_settings M N U s Vh orm_inv_given orbit_diff false
          = some (p.mulVec orbit_diff))
    ∧ get_correctors_settings M N U s Vh orm_inv_given orbit_diff true
        = some (orm_inv_given.mulVec orbit_diff) := by
  constructor
  · refine ⟨Vh.transpose * S_inv M N s * U.transpose, ?_, ?_, ?_⟩
    · rw [inverse_matrix, if_pos hs]
    · rw [hm]
      exact svd_pseudo_inverse M N U s Vh hU hV hs
    · rw [get_correctors_settings, if_neg (by simp), inverse_matrix,
        if_pos hs]
      rfl
  · rw [get_correctors_settings, if_pos rfl]

theorem get_correctors_settings_spec_witness :
    (∃ p, inverse_matrix 1 1 1 (fun _ => 2) 1 = some p
      ∧ IsPseudoInverse (1 * Sdiag 1 1 (fun _ => 2) * 1) p
      ∧ get_correctors_settings 1 1 1 (fun _ => 2) 1 0 (fun _ => 1) false
          = some (p.mulVec (fun _ => 1)))
    ∧ get_correctors_settings 1 1 1 (fun _ => 2) 1 0 (fun _ => 1) true
        = some ((0 : Matrix (Fin 1) (Fin 1) ℚ).mulVec (fun _ => 1)) :=
  get_correctors_settings_spec 1 1 1 (fun _ => 2) 1
    (1 * Sdiag 1 1 (fun _ => 2) * 1) 0 (fun _ => 1) rfl (by simp) (by simp)
    (fun i => by norm_num)

/-- C5 (counterexample): at the rank-deficient `orm = [[0]]` (SVD
factors `U = [[1]]`, `s = [0]`, `Vh = [[1]]`, first conjunct) the
`inverse=False` branch performs `1.0/0.0` inside `inverse_matrix` and
produces no finite matrix (`none` in the embedding), hence not the
pseudo-inverse product: `[[0]]` is a pseudo-inverse of `[[0]]` (second
conjunct) and its product with the orbit error is the zero vector, but
the call returns `none ≠ some 0`. -/
theorem get_correctors_settings_rank_deficient_none :
    ((1 : Matrix (Fin 1) (Fin 1) ℚ) * Sdiag 1 1 (fun _ => 0) * 1
        = (0 : Matrix (Fin 1) (Fin 1) ℚ))
    ∧ IsPseudoInverse (0 : Matrix (Fin 1) (Fin 1) ℚ) 0
    ∧ get_correctors_settings 1 1 1 (fun _ => 0) 1 0 (fun _ => 1) false
        = none
    ∧ (none : Option (Fin 1 → ℚ))
        ≠ some ((0 : Matrix (Fin 1) (Fin 1) ℚ).mulVec (fun _ => 1)) := by
  refine ⟨?_, by constructor <;> simp, ?_, by simp⟩
  · ext i j
    simp [Sdiag, svext]
  · rw [get_correctors_settings, if_neg (by simp), inverse_matrix, if_neg]
    · rfl
    · intro h
      exact (h ⟨0, by decide⟩) rfl

/-! ### Index-grid bookkeeping (claim C6) -/

/-- `list.index(x)` really locates `x`: reading the list back at the
returned position gives `x` (first occurrence). -/
lemma getD_indexOf (l : List Nat) (x : Nat) (hx : x ∈ l) :
    l.getD (l.indexOf x) 0 = x := by
  rw [List.getD_eq_getElem _ _ (List.indexOf_lt_length.mpr hx)]
  exact List.getElem_indexOf _

/-- C6: `get_index_grid` returns the index grid of the sub-ORM inside
the global ORM.  Columns are the positions of the selected correctors in
`HCOR + VCOR` (first conjunct shows all three `xoy` cases); rows for
`'xy'` are the selected BPM positions followed by the same positions
offset by the total BPM count, for `'x'` the positions alone, for `'y'`
only the offset positions.  The last three conjuncts certify that the
computed positions really locate the selected elements and that applying
the grid extracts exactly the global entries at those positions. -/
theorem get_index_grid_spec (lat : Lattice) (correctors monitors : List Nat)
    (g : Nat → Nat → ℚ)
    (hc : ∀ c ∈ correctors, c ∈ lat.hcor ++ lat.vcor)
    (hb : ∀ b ∈ monitors, b ∈ lat.bpm) :
    (get_index_grid lat correctors monitors "xy"
        = some ((monitors.map (fun b => lat.bpm.indexOf b))
            ++ (monitors.map (fun b => lat.bpm.indexOf b + lat.bpm.length)),
            correctors.map (fun c => (lat.hcor ++ lat.vcor).indexOf c))
      ∧ get_index_grid lat correctors monitors "x"
        = some (monitors.map (fun b => lat.bpm.indexOf b),
            correctors.map (fun c => (lat.hcor ++ lat.vcor).indexOf c))
      ∧ get_index_grid lat correctors monitors "y"
        = some (monitors.map (fun b => lat.bpm.indexOf b + lat.bpm.length),
            correctors.map (fun c => (lat.hcor ++ lat.vcor).indexOf c)))
    ∧ (∀ k, k < correctors.length →
        (lat.hcor ++ lat.vcor).getD
            ((correctors.map
              (fun c => (lat.hcor ++ lat.vcor).indexOf c)).getD k 0) 0
          = correctors.getD k 0)
    ∧ (∀ k, k < monitors.length →
        lat.bpm.getD
            ((monitors.map (fun b => lat.bpm.indexOf b)).getD k 0) 0
          = monitors.getD k 0)
    ∧ (∀ rows cols r c,
        subgrid g rows cols r c = g (rows.getD r 0) (cols.getD c 0)) := by
  refine ⟨⟨?_, ?_, ?_⟩, ?_, ?_, fun rows cols r c => rfl⟩
  · rw [get_index_grid, if_pos rfl]
    simp [List.map_map, Function.comp]
  · rw [get_index_grid, if_neg (by decide), if_pos rfl]
  · rw [get_index_grid, if_neg (by decide), if_neg (by decide), if_pos rfl]
    simp [List.map_map, Function.comp]
  · intro k hk
    have hkm : k < (correctors.map
        (fun c => (lat.hcor ++ lat.vcor).indexOf c)).length := by
      simpa using hk
    rw [List.getD_eq_getElem _ _ hkm, List.getElem_map,
      List.getD_eq_getElem _ _ hk]
    exact getD_indexOf _ _ (hc _ (List.getElem_mem hk))
  · intro k hk
    have hkm : k < (monitors.map (fun b => lat.bpm.indexOf b)).length := by
      simpa using hk
    rw [List.getD_eq_getElem _ _ hkm, List.getElem_map,
      List.getD_eq_getElem _ _ hk]
    exact getD_indexOf _ _ (hb _ (List.getElem_mem hk))

theorem get_index_grid_spec_witness :
    ((∀ c ∈ [2], c ∈ [1] ++ [2]) ∧ ∀ b ∈ [3], b ∈ [3])
    ∧ get_index_grid ⟨[1], [2], [3]⟩ [2] [3] "y"
        = some ([3].map (fun b => [3].indexOf b + [3].length),
            [2].map (fun c => ([1] ++ [2]).indexOf c)) :=
  ⟨⟨by decide, by decide⟩,
   ((get_index_grid_spec ⟨[1], [2], [3]⟩ [2] [3] (fun _ _ => 0)
     (by decide) (by decide)).1).2.2⟩

end Orm
